import Mathlib

/-!
Shallow embedding of the png2svg repository (package `png2svg` plus
`cmd/png2svg/main.go`) and proofs about its specification claims.

Strings are embedded as `List Char`.  Go's `strings` helpers used by the
source (`Replace`, `Contains`, `HasPrefix`, `Fields`, `Split`, `Join`) are
translated below.  The pixel grid, its operations (`Done`, `At`, `Covered`,
`CoverAllPixels`, `FirstUncovered`, `WriteSVG`) and the document compaction
pass (`colorFromLine`, `groupLinesByFillColor`, the `String` method's
minimization chain) are translated from the source.  The box operations
(`CreateBox`, `Expand`, `CoverBox`) are code of the repository that is not
part of the given sources; they are modelled from the spec where needed.
-/

namespace Png2Svg

/-- Go `strings.Replace(s, pat, rep, n)`: replaces up to `n` non-overlapping
occurrences of `pat` in `s` left to right; `n < 0` means no limit.
The `pat = []` case (Go would insert `rep` between runes) is returned
unchanged; every pattern used by the source is non-empty.  The structural
`fuel` only bounds the recursion: each step consumes at least one character
of `s`, so `s.length` fuel (as `goReplace` passes) never runs out. -/
def goReplaceFuel (pat rep : List Char) : Nat → Int → List Char → List Char
  | 0, _, s => s
  | fuel + 1, n, s =>
    match s with
    | [] => []
    | c :: rest =>
      if pat ≠ [] ∧ n ≠ 0 ∧ pat.isPrefixOf (c :: rest) then
        rep ++ goReplaceFuel pat rep fuel (n - 1) ((c :: rest).drop pat.length)
      else
        c :: goReplaceFuel pat rep fuel n rest

def goReplace (s pat rep : List Char) (n : Int) : List Char :=
  goReplaceFuel pat rep s.length n s

/-- Go `strings.Contains(s, pat)`: `pat` occurs as a contiguous substring. -/
def occursIn (pat : List Char) : List Char → Bool
  | [] => pat.isEmpty
  | c :: rest => pat.isPrefixOf (c :: rest) || occursIn pat rest

/-- Go `unicode.IsSpace` restricted to the characters that can appear here. -/
def goIsSpace (c : Char) : Bool :=
  c = ' ' || c = '\t' || c = '\n' || c = '\r'

/-- Go `strings.Fields(s)`: splits around runs of whitespace, no empty fields.
`acc` is the (reversed) current field being accumulated. -/
def fieldsAux (acc : List Char) : List Char → List (List Char)
  | [] => if acc = [] then [] else [acc.reverse]
  | c :: rest =>
    if goIsSpace c then
      if acc = [] then fieldsAux [] rest
      else acc.reverse :: fieldsAux [] rest
    else fieldsAux (c :: acc) rest

def goFields (s : List Char) : List (List Char) := fieldsAux [] s

/-- Go `strings.Split(s, sep)` for a one-character separator (the source only
splits on `"\""` and `"\n"`). -/
def splitOnChar (sep : Char) : List Char → List (List Char)
  | [] => [[]]
  | c :: rest =>
    match splitOnChar sep rest with
    | [] => [[]]
    | g :: gs => if c = sep then [] :: g :: gs else (c :: g) :: gs

/-- Go `strings.Join(lines, "\n")`. -/
def joinLines (lines : List (List Char)) : List Char :=
  List.intercalate ['\n'] lines

/-- Source `colorFromLine`: extract the fill color from an svg rect line
(`<rect ... fill="#ff0000" ...` yields `#ff0000`), empty if none is found.
Translated from the source: the `strings.Contains` guard, then the first
field with the `fill=` head, split on `"`.  Go indexes `elems[1]`, which
panics if the matched field holds no quote; that is unreachable via the
guard for the field the guard's occurrence starts, and the model returns
the empty string there. -/
def colorFromLine (line : List Char) : List Char :=
  if !occursIn (" fill=\"".toList) line then []
  else
    match (goFields line).find? (fun field => ("fill=".toList).isPrefixOf field) with
    | some field => ((splitOnChar '"' field).drop 1).headD []
    | none => []

/-- The color substitution table of the source `String` method, in source
order: `#f00` → `red`, `#ff0000` → `red`, `#ffffff` → `white`,
`#000000` → `black`. -/
def colorReplacements : List (List Char × List Char) :=
  [("#f00".toList, "red".toList),
   ("#ff0000".toList, "red".toList),
   ("#ffffff".toList, "white".toList),
   ("#000000".toList, "black".toList)]

/-- The four color-substitution rewrites of the source `String` method
(its last four `strings.Replace` calls), applied in source order. -/
def applyColorReplacements (d : List Char) : List Char :=
  colorReplacements.foldl (fun acc pr => goReplace acc pr.1 pr.2 (-1)) d

/-- The fixed textual minimization chain of the source `String` method: the
twelve global `strings.Replace` passes, in source order. -/
def minimizeDoc (d0 : List Char) : List Char :=
  let d1 := goReplace d0 ("\n".toList) [] (-1)
  let d2 := goReplace d1 (" />".toList) ("/>".toList) (-1)
  let d3 := goReplace d2 ("  ".toList) (" ".toList) (-1)
  let d4 := goReplace d3 (" x=\"0\"".toList) [] (-1)
  let d5 := goReplace d4 (" y=\"0\"".toList) [] (-1)
  let d6 := goReplace d5 (" width=\"0\"".toList) [] (-1)
  let d7 := goReplace d6 (" height=\"0\"".toList) [] (-1)
  let d8 := goReplace d7 ("> <".toList) ("><".toList) (-1)
  applyColorReplacements d8

/-- Two fill-color strings denote the same rendered color: they are equal,
or they are a hex/name pair of the source substitution table (in either
direction). -/
def colorEquivB (c1 c2 : List Char) : Bool :=
  c1 == c2 ||
    colorReplacements.any (fun pr =>
      (pr.1 == c1 && pr.2 == c2) || (pr.1 == c2 && pr.2 == c1))

/-- The `" fill=\"<key>\""` substring removed from each grouped line by
`groupLinesByFillColor`. -/
def fillAttr (key : List Char) : List Char :=
  " fill=\"".toList ++ key ++ "\"".toList

/-- One step of building Go's `groupedLines` map: append `line` to the
bucket of `key`, creating the bucket if absent.  The Go map is modelled as
an association list in key-insertion order. -/
def addToGroup (groups : List (List Char × List (List Char)))
    (key line : List Char) : List (List Char × List (List Char)) :=
  match groups with
  | [] => [(key, [line])]
  | (k, ls) :: rest =>
    if k = key then (k, ls ++ [line]) :: rest
    else (k, ls) :: addToGroup rest key line

/-- Phase 1 of `groupLinesByFillColor`, the map side: bucket every line that
carries a fill color by that color (`colorFromLine`), in line order. -/
def buildGroups (lines : List (List Char)) : List (List Char × List (List Char)) :=
  lines.foldl
    (fun gs line =>
      let k := colorFromLine line
      if k = [] then gs else addToGroup gs k line)
    []

/-- Phase 1 of `groupLinesByFillColor`, the slice side: every line that
carries a fill color is erased (`lines[i] = ""`). -/
def eraseGrouped (lines : List (List Char)) : List (List Char) :=
  lines.map (fun line => if colorFromLine line = [] then line else [])

/-- The keys of the grouped-lines map, in insertion order. -/
def groupKeys (groups : List (List Char × List (List Char))) : List (List Char) :=
  groups.map Prod.fst

/-- Bucket lookup, as Go's map indexing (first — and with distinct keys,
only — entry for the key). -/
def lookupGroup (groups : List (List Char × List (List Char)))
    (key : List Char) : List (List Char) :=
  match groups.find? (fun g => g.1 == key) with
  | some g => g.2
  | none => []

/-- Phase 2 of `groupLinesByFillColor`: one `<g>` block.  For each member
line the first occurrence of `" fill=\"key\""` is removed
(`strings.Replace(line, " fill=\""+key+"\"", "", 1)`). -/
def renderGroup (key : List Char) (members : List (List Char)) : List Char :=
  ("<g fill=\"".toList ++ key ++ "\">".toList)
    ++ (members.map (fun m => goReplace m (fillAttr key) [] 1)).flatten
    ++ "</g>".toList

/-- Phase 2 of `groupLinesByFillColor`: the concatenated `<g>` blocks.
Go ranges over the `groupedLines` map, whose iteration order is not
specified by the language; the model takes the order as an explicit
argument, constrained in the theorems to enumerate the keys exactly once
(a permutation of `groupKeys`). -/
def renderGroups (order : List (List Char))
    (groups : List (List Char × List (List Char))) : List Char :=
  (order.map (fun k => renderGroup k (lookupGroup groups k))).flatten

/-- Phase 3 of `groupLinesByFillColor`: insert the contents at the first
empty line, leaving the rest untouched (the `inserted` flag loop). -/
def insertContents (contents : List Char) : List (List Char) → List (List Char)
  | [] => []
  | l :: rest => if l = [] then contents :: rest else l :: insertContents contents rest

/-- Source `groupLinesByFillColor`, with the Go map iteration order made
explicit as `order`. -/
def groupLinesByFillColor (lines : List (List Char))
    (order : List (List Char)) : List (List Char) :=
  insertContents (renderGroups order (buildGroups lines)) (eraseGrouped lines)

/-- Source `String` method: split the (externally) rendered document into
lines, group by fill color, rejoin, then run the minimization chain.
`svgDocument` stands for the external emitter's `pi.page.String()` output;
`order` is the Go map iteration order of the grouping pass. -/
def StringRender (svgDocument : List Char) (order : List (List Char)) : List Char :=
  minimizeDoc (joinLines (groupLinesByFillColor (splitOnChar '\n' svgDocument) order))

/-- Source `Pixel`: position, color channels, alpha, covered flag. -/
structure Pixel where
  x : Nat
  y : Nat
  r : Nat
  g : Nat
  b : Nat
  a : Nat
  covered : Bool
deriving DecidableEq, Repr, Inhabited

/-- One committed output rectangle.  The external emitter (`onthefly`) is an
excluded collaborator; a call `svgTag.Pixel(x, y, r, g, b)` is modelled as
appending a 1×1 rectangle with that position and fill color, and a box
emission as appending its bounds and fill. -/
structure RenderedRect where
  x : Nat
  y : Nat
  w : Nat
  h : Nat
  r : Nat
  g : Nat
  b : Nat
deriving DecidableEq, Repr

/-- Source `PixelImage`.  The `page`/`svgTag` pair (external emitter state)
is modelled as the list of rectangles emitted so far; the `verbose` flag
only drives progress printing and is dropped. -/
structure PixelImage where
  pixels : List Pixel
  rects : List RenderedRect
  w : Nat
  h : Nat
deriving DecidableEq, Repr

/-- A decoded raster pixel, as the external decoder provides it. -/
structure RGBA where
  r : Nat
  g : Nat
  b : Nat
  a : Nat
deriving DecidableEq, Repr

/-- Source `NewPixelImage`: row-major pixel list (y outer, x inner), each
pixel keeping its coordinates and channels; a pixel is pre-marked covered
exactly when its alpha is 0.  The image is addressed by a total color
function with bounds min = (0,0) (PNG decoding always yields zero-based
bounds).  The fresh emitter state is the empty rectangle list. -/
def mkNewPixel (img : Nat → Nat → RGBA) (x y : Nat) : Pixel :=
  let c := img x y
  { x := x, y := y, r := c.r, g := c.g, b := c.b, a := c.a,
    covered := c.a = 0 }

def NewPixelImage (wid hei : Nat) (img : Nat → Nat → RGBA) : PixelImage :=
  { pixels :=
      (List.range hei).flatMap (fun y =>
        (List.range wid).map (fun x => mkNewPixel img x y))
    rects := []
    w := wid
    h := hei }

/-- Source `Done`: scan the pixels, false at the first uncovered one. -/
def doneLoop : List Pixel → Bool
  | [] => true
  | p :: ps => if !p.covered then false else doneLoop ps

def Done (pi : PixelImage) : Bool := doneLoop pi.pixels

/-- Source `At`: color at `(x, y)` via the row-major index `y*w + x`.
Go indexes the slice directly and would panic out of bounds; all callers
stay inside the grid, and the model returns black there. -/
def At (pi : PixelImage) (x y : Nat) : Nat × Nat × Nat :=
  match pi.pixels.get? (y * pi.w + x) with
  | some p => (p.r, p.g, p.b)
  | none => (0, 0, 0)

/-- Source `Covered`: covered flag at `(x, y)` via the row-major index.
Out of bounds (where Go would panic) the model answers `true`. -/
def Covered (pi : PixelImage) (x y : Nat) : Bool :=
  match pi.pixels.get? (y * pi.w + x) with
  | some p => p.covered
  | none => true

/-- The uncovered test `!pi.pixels[i].covered` of the source scans. -/
def uncoveredAt (pi : PixelImage) (x y : Nat) : Bool :=
  !(Covered pi x y)

/-- The 1×1 rectangle `svgTag.Pixel((*p).x, (*p).y, (*p).r, (*p).g, (*p).b)`
emits for a pixel. -/
def pixelRect (p : Pixel) : RenderedRect :=
  { x := p.x, y := p.y, w := 1, h := 1, r := p.r, g := p.g, b := p.b }

/-- The single loop of source `CoverAllPixels`: per pixel, if uncovered,
emit its 1×1 rectangle and set the covered flag.  Returns the updated pixel
list and the emitted rectangles, in pixel order. -/
def coverAllLoop : List Pixel → List Pixel × List RenderedRect
  | [] => ([], [])
  | p :: ps =>
    let (ps', rs) := coverAllLoop ps
    if !p.covered then ({ p with covered := true } :: ps', pixelRect p :: rs)
    else (p :: ps', rs)

/-- Source `CoverAllPixels`: cover every remaining pixel with a 1×1
rectangle (the `coverCount` is only printed and dropped here). -/
def CoverAllPixels (pi : PixelImage) : PixelImage :=
  { pi with
    pixels := (coverAllLoop pi.pixels).1
    rects := pi.rects ++ (coverAllLoop pi.pixels).2 }

/-- Inner loop of source `FirstUncovered`: first uncovered column of row
`y`, scanning `x = 0, 1, ..., w-1`. -/
def scanRow (pi : PixelImage) (y : Nat) : Option Nat :=
  (List.range pi.w).find? (fun x => uncoveredAt pi x y)

/-- Source `FirstUncovered`: row-major scan (y ascending, then x ascending)
for the first uncovered pixel.  The fall-through `panic("All pixels are
covered")` of the source is the `none` result. -/
def FirstUncovered (pi : PixelImage) : Option (Nat × Nat) :=
  (List.range pi.h).findSome? (fun y => (scanRow pi y).map (fun x => (x, y)))

/-- The message of the incomplete-coverage error in source `WriteSVG`. -/
def incompleteCoverageMsg : List Char :=
  "the SVG representation does not cover all pixels".toList

/-- Outcome of a `WriteSVG` call: an error (nothing written), or success
carrying exactly the document text that was written. -/
inductive WriteResult where
  | error (msg : List Char)
  | written (content : List Char)
deriving DecidableEq, Repr

/-- The propagated error of a failed `os.Create` / `WriteString`; its text
comes from the operating system and is irrelevant to the claims. -/
def ioErrorMsg : List Char := "io error".toList

/-- Source `WriteSVG`: refuse with the incomplete-coverage error before
touching any output when `Done` is false; otherwise open the destination
(or stdout) and write `pi.String()`.  The two I/O failure points (create,
write) are collapsed into the external `ioFail` flag; `svgDocument` and
`order` feed the `String` model as in `StringRender`. -/
def WriteSVG (pi : PixelImage) (svgDocument : List Char)
    (order : List (List Char)) (ioFail : Bool) : WriteResult :=
  if !(Done pi) then .error incompleteCoverageMsg
  else if ioFail then .error ioErrorMsg
  else .written (StringRender svgDocument order)

/-- Number of pixels still uncovered. -/
def countUncovered (pi : PixelImage) : Nat :=
  pi.pixels.countP (fun p => !p.covered)

/-- Grid coherence: exactly `w*h` pixels, and the pixel stored at row-major
index `i` carries the coordinates `(i % w, i / w)`.  `NewPixelImage`
establishes this; decidable so concrete grids discharge it by `decide`. -/
def coherentB (pi : PixelImage) : Bool :=
  (pi.pixels.length == pi.w * pi.h) &&
  (List.range pi.pixels.length).all (fun i =>
    (pi.pixels.getD i default).x == i % pi.w &&
    (pi.pixels.getD i default).y == i / pi.w)

/-- Modelled from the spec: a Box is an inclusive axis-aligned rectangle
`(x1,y1)–(x2,y2)` carrying the seed pixel's reference color; `CreateBox`,
`Expand` and `CoverBox` live in repository code outside the given sources. -/
structure Box where
  x1 : Nat
  y1 : Nat
  x2 : Nat
  y2 : Nat
  r : Nat
  g : Nat
  b : Nat
deriving DecidableEq, Repr

/-- Modelled from the spec: `CreateBox` makes a 1×1 box at `(x, y)` seeded
with that pixel's color. -/
def CreateBox (pi : PixelImage) (x y : Nat) : Box :=
  let c := At pi x y
  { x1 := x, y1 := y, x2 := x, y2 := y, r := c.1, g := c.2.1, b := c.2.2 }

/-- Modelled from the spec: the rightward growth test — every pixel of the
candidate column `nx` across the box's current row range is uncovered and
has exactly the seed color. -/
def colOk (pi : PixelImage) (box : Box) (nx : Nat) : Bool :=
  (List.range (box.y2 + 1 - box.y1)).all (fun dy =>
    let yy := box.y1 + dy
    !(Covered pi nx yy) && (At pi nx yy == (box.r, box.g, box.b)))

/-- Modelled from the spec: the downward growth test — every pixel of the
candidate row `ny` across the box's (fixed) column range is uncovered and
has exactly the seed color. -/
def rowOk (pi : PixelImage) (box : Box) (ny : Nat) : Bool :=
  (List.range (box.x2 + 1 - box.x1)).all (fun dx =>
    let xx := box.x1 + dx
    !(Covered pi xx ny) && (At pi xx ny == (box.r, box.g, box.b)))

/-- Modelled from the spec: rightward phase of `Expand` — repeatedly extend
the right edge by one column while the test passes and the grid boundary is
not reached.  `fuel` bounds the iterations; `pi.w` always suffices since
every step strictly increases `x2 < pi.w`. -/
def expandRight (pi : PixelImage) : Nat → Box → Box
  | 0, box => box
  | fuel + 1, box =>
    if box.x2 + 1 < pi.w && colOk pi box (box.x2 + 1) then
      expandRight pi fuel { box with x2 := box.x2 + 1 }
    else box

/-- Modelled from the spec: downward phase of `Expand`, after the column
range is fixed.  `fuel` bounds the iterations; `pi.h` always suffices. -/
def expandDown (pi : PixelImage) : Nat → Box → Box
  | 0, box => box
  | fuel + 1, box =>
    if box.y2 + 1 < pi.h && rowOk pi box (box.y2 + 1) then
      expandDown pi fuel { box with y2 := box.y2 + 1 }
    else box

/-- Modelled from the spec: `Expand` — two-phase greedy growth, right then
down, returning the grown box and whether it grew beyond its input size. -/
def Expand (pi : PixelImage) (box : Box) : Box × Bool :=
  let b1 := expandRight pi pi.w box
  let b2 := expandDown pi pi.h b1
  (b2, decide (box.x2 < b2.x2) || decide (box.y2 < b2.y2))

/-- Modelled from the spec: the fixed debug color used for expanded boxes
under the pink override (its exact value is irrelevant to the claims). -/
def pinkColor : Nat × Nat × Nat := (255, 0, 255)

/-- Modelled from the spec: quantization truncates the low-order bits of
each channel (4 bits per channel, capping the palette at 4096 colors). -/
def quantizeChannel (c : Nat) : Nat := c / 16 * 16

/-- Membership of a pixel in a box (inclusive bounds). -/
def inBox (box : Box) (p : Pixel) : Bool :=
  box.x1 ≤ p.x && p.x ≤ box.x2 && box.y1 ≤ p.y && p.y ≤ box.y2

/-- Modelled from the spec: `CoverBox` marks every pixel inside the box
covered and emits exactly one rectangle — pink if the override is active,
else the (possibly quantized) seed color. -/
def CoverBox (pi : PixelImage) (box : Box) (pink quantize : Bool) : PixelImage :=
  let fill : Nat × Nat × Nat :=
    if pink then pinkColor
    else if quantize then (quantizeChannel box.r, quantizeChannel box.g, quantizeChannel box.b)
    else (box.r, box.g, box.b)
  { pi with
    pixels := pi.pixels.map (fun p => if inBox box p then { p with covered := true } else p)
    rects := pi.rects ++
      [{ x := box.x1, y := box.y1,
         w := box.x2 - box.x1 + 1, h := box.y2 - box.y1 + 1,
         r := fill.1, g := fill.2.1, b := fill.2.2 }] }

/-- One iteration of the main covering loop of `cmd/png2svg/main.go`
(non-single-pixel mode): seed at `FirstUncovered`, expand, cover.  The
`none` case is Go's `panic` inside `FirstUncovered`; the loop guard keeps
it unreachable. -/
def mainStep (pi : PixelImage) (colorPink quantize : Bool) : PixelImage :=
  match FirstUncovered pi with
  | none => pi
  | some (x, y) =>
    let box := CreateBox pi x y
    let (ebox, expanded) := Expand pi box
    CoverBox pi ebox (expanded && colorPink) quantize

/-- The main covering loop, `for !pi.Done() { ... }`, run on explicit fuel;
`countUncovered pi` iterations always suffice (each step covers at least
one pixel — the progress theorem below). -/
def mainLoopFuel (colorPink quantize : Bool) : Nat → PixelImage → PixelImage
  | 0, pi => pi
  | fuel + 1, pi =>
    if Done pi then pi
    else mainLoopFuel colorPink quantize fuel (mainStep pi colorPink quantize)

/-- The main covering loop of `cmd/png2svg/main.go`. -/
def mainLoop (pi : PixelImage) (colorPink quantize : Bool) : PixelImage :=
  mainLoopFuel colorPink quantize (countUncovered pi) pi

/-- The lines of the input that carry a fill color — the rectangle element
lines the grouping pass collects. -/
def fillLines (lines : List (List Char)) : List (List Char) :=
  lines.filter (fun l => !(colorFromLine l == []))

/-- A grouped line as it appears in the output, with the first occurrence
of its own `" fill=\"<color>\""` attribute removed. -/
def stripOwnFill (line : List Char) : List Char :=
  goReplace line (fillAttr (colorFromLine line)) [] 1

/-- The member lines of the rendered `<g>` blocks, in emission order: per
key of `order`, that bucket's lines with the shared fill removed. -/
def strippedMembers (order : List (List Char))
    (groups : List (List Char × List (List Char))) : List (List Char) :=
  (order.map (fun k =>
    (lookupGroup groups k).map (fun m => goReplace m (fillAttr k) [] 1))).flatten

/-- One pixel evolving under a grid operation: every field except the
covered flag is unchanged, and the covered flag is never reset. -/
def pixelEvolves (p q : Pixel) : Prop :=
  q.x = p.x ∧ q.y = p.y ∧ q.r = p.r ∧ q.g = p.g ∧ q.b = p.b ∧ q.a = p.a ∧
    (p.covered = true → q.covered = true)

/-- Concrete inputs used by the counterexamples and witnesses below. -/
def c1ExampleLine : List Char :=
  "<rect width=\"1\" height=\"1\" fill=\"#f00baa\" />".toList

def c10ExampleDoc : List Char :=
  "<rect x=\"1\" fill=\"#111111\" />\n<rect x=\"2\" fill=\"#222222\" />".toList

def c10OrderA : List (List Char) := ["#111111".toList, "#222222".toList]

def c10OrderB : List (List Char) := ["#222222".toList, "#111111".toList]

def c3ExampleLines : List (List Char) :=
  ["<svg>".toList,
   "<rect x=\"1\" fill=\"#10\" />".toList,
   "<rect x=\"2\" fill=\"#20\" />".toList,
   "<rect x=\"3\" fill=\"#10\" />".toList,
   "</svg>".toList]

def c3ExampleOrder : List (List Char) := ["#20".toList, "#10".toList]

def imgRed : Nat → Nat → RGBA := fun _ _ => { r := 255, g := 0, b := 0, a := 255 }

/-- 2×2 image whose (0,0) pixel is fully transparent, the rest opaque. -/
def imgMix : Nat → Nat → RGBA := fun x y =>
  if x = 0 && y = 0 then { r := 1, g := 2, b := 3, a := 0 }
  else { r := 10, g := 20, b := 30, a := 255 }

def gridMix : PixelImage := NewPixelImage 2 2 imgMix

def gridRed : PixelImage := NewPixelImage 2 1 imgRed

def c10SingleDoc : List Char := "<rect x=\"3\" fill=\"#333333\" />".toList

def c10SingleOrder : List (List Char) := ["#333333".toList]

/-- If the pattern does not occur in `s`, one fuel step of
`strings.Replace` keeps `s` unchanged, for any fuel. -/
theorem goReplaceFuel_of_not_occurs {pat : List Char} (rep : List Char)
    (fuel : Nat) (n : Int) (s : List Char) (h : occursIn pat s = false) :
    goReplaceFuel pat rep fuel n s = s := by
  induction fuel generalizing s with
  | zero => rfl
  | succ fuel ih =>
    cases s with
    | nil => rfl
    | cons c rest =>
      rw [occursIn] at h
      rw [Bool.or_eq_false_iff] at h
      rw [goReplaceFuel]
      rw [if_neg (by simp [h.1])]
      rw [ih rest h.2]

/-- If the pattern does not occur in `s`, `strings.Replace` returns `s`
unchanged. -/
theorem goReplace_of_not_occurs {pat : List Char} {s : List Char}
    (rep : List Char) (n : Int) (h : occursIn pat s = false) :
    goReplace s pat rep n = s :=
  goReplaceFuel_of_not_occurs rep s.length n s h

/-- C1, counterexample: on a rendered rectangle whose six-digit hex fill
color begins with `f00`, the minimization chain rewrites the fill to a
string that is not an equivalent color (`#f00baa` becomes `redbaa`). -/
theorem c1_counterexample :
    colorFromLine c1ExampleLine = "#f00baa".toList ∧
    colorFromLine (minimizeDoc c1ExampleLine) = "redbaa".toList ∧
    colorEquivB ("#f00baa".toList) (colorFromLine (minimizeDoc c1ExampleLine)) = false := by
  decide

/-- C1 (amended): each color-substitution rewrite of the minimization list
maps a fill color to an equivalent color (itself, or its named form)
provided the color is exactly one of the substituted tokens or contains
none of them as a substring; a longer hex color containing a token (such
as `#f00baa`) is corrupted. -/
theorem color_replacements_preserve_color (c : List Char)
    (h : c ∈ colorReplacements.map Prod.fst ∨
      colorReplacements.all (fun pr => !occursIn pr.1 c) = true) :
    colorEquivB c (applyColorReplacements c) = true := by
  rcases h with h | h
  · fin_cases h <;> decide
  · rw [colorReplacements, List.all_cons, List.all_cons, List.all_cons, List.all_cons] at h
    simp only [Bool.and_eq_true, Bool.not_eq_true', List.all_nil] at h
    obtain ⟨h1, h2, h3, h4, -⟩ := h
    show colorEquivB c
      (goReplace (goReplace (goReplace (goReplace c _ _ _) _ _ _) _ _ _) _ _ _) = true
    rw [goReplace_of_not_occurs _ _ h1, goReplace_of_not_occurs _ _ h2,
      goReplace_of_not_occurs _ _ h3, goReplace_of_not_occurs _ _ h4]
    simp [colorEquivB]

/-- C1, witness for the amended theorem: the token `#ff0000` is rewritten
to the equivalent `red`, and a color containing no token is untouched. -/
theorem color_replacements_preserve_color_witness :
    colorEquivB ("#ff0000".toList) (applyColorReplacements ("#ff0000".toList)) = true ∧
    colorEquivB ("#123456".toList) (applyColorReplacements ("#123456".toList)) = true :=
  ⟨color_replacements_preserve_color _ (Or.inl (by decide)),
   color_replacements_preserve_color _ (Or.inr (by decide))⟩

/-- `Done` is false exactly when some pixel is still uncovered. -/
theorem doneLoop_eq_false_iff (ps : List Pixel) :
    doneLoop ps = false ↔ ∃ p ∈ ps, p.covered = false := by
  induction ps with
  | nil => simp [doneLoop]
  | cons p ps ih =>
    rw [doneLoop]
    by_cases h : p.covered <;> simp [h, ih]

/-- C4: `WriteSVG` fails exactly when coverage is incomplete or output I/O
fails; with incomplete coverage the distinct incomplete-coverage error is
returned before anything is written, and on success exactly the rendered
document is written. -/
theorem writeSVG_error_iff (pi : PixelImage) (doc : List Char)
    (order : List (List Char)) (ioFail : Bool) :
    ((∃ m, WriteSVG pi doc order ioFail = .error m) ↔ (Done pi = false ∨ ioFail = true)) ∧
    (Done pi = false ↔ ∃ p ∈ pi.pixels, p.covered = false) ∧
    (Done pi = false → WriteSVG pi doc order ioFail = .error incompleteCoverageMsg) ∧
    (Done pi = true → ioFail = false →
      WriteSVG pi doc order ioFail = .written (StringRender doc order)) := by
  refine ⟨⟨?_, ?_⟩, doneLoop_eq_false_iff pi.pixels, ?_, ?_⟩
  · rintro ⟨m, hm⟩
    by_cases hd : Done pi
    · by_cases hio : ioFail
      · exact Or.inr hio
      · rw [WriteSVG, if_neg (by simp [hd]), if_neg (by simp [hio])] at hm
        exact absurd hm (by simp)
    · exact Or.inl (by simpa using hd)
  · rintro (hd | hio)
    · exact ⟨incompleteCoverageMsg, by rw [WriteSVG, if_pos (by simp [hd])]⟩
    · by_cases hd : Done pi
      · exact ⟨ioErrorMsg, by rw [WriteSVG, if_neg (by simp [hd]), if_pos hio]⟩
      · exact ⟨incompleteCoverageMsg,
          by rw [WriteSVG, if_pos (by simp [Bool.eq_false_iff.mpr hd])]⟩
  · intro hd
    rw [WriteSVG, if_pos (by simp [hd])]
  · intro hd hio
    rw [WriteSVG, if_neg (by simp [hd]), if_neg (by simp [hio])]

/-- C4, witness: on a 2×2 grid with opaque pixels nothing is written and
the incomplete-coverage error is returned; after covering, writing
succeeds with exactly the rendered document. -/
theorem writeSVG_error_iff_witness :
    WriteSVG gridMix [] [] false = .error incompleteCoverageMsg ∧
    WriteSVG (CoverAllPixels gridMix) [] [] false = .written (StringRender [] []) :=
  ⟨(writeSVG_error_iff gridMix [] [] false).2.2.1 (by decide),
   (writeSVG_error_iff (CoverAllPixels gridMix) [] [] false).2.2.2 (by decide) rfl⟩

/-- The pixel side of the `CoverAllPixels` loop: every pixel gets its
covered flag set (uncovered ones are flipped, covered ones kept). -/
theorem coverAllLoop_fst (ps : List Pixel) :
    (coverAllLoop ps).1
      = ps.map (fun p => if !p.covered then { p with covered := true } else p) := by
  induction ps with
  | nil => rfl
  | cons p ps ih =>
    by_cases h : p.covered <;> simp [coverAllLoop, h, ih]

/-- The emission side of the `CoverAllPixels` loop: exactly the uncovered
pixels produce 1×1 rectangles, in scan order. -/
theorem coverAllLoop_snd (ps : List Pixel) :
    (coverAllLoop ps).2 = (ps.filter (fun p => !p.covered)).map pixelRect := by
  induction ps with
  | nil => rfl
  | cons p ps ih =>
    by_cases h : p.covered <;> simp [coverAllLoop, List.filter_cons, h, ih]

/-- After mapping a cover-monotone function that covers everything,
`doneLoop` accepts. -/
theorem doneLoop_map_covered (ps : List Pixel) (f : Pixel → Pixel)
    (hf : ∀ p, (f p).covered = true) : doneLoop (ps.map f) = true := by
  induction ps with
  | nil => rfl
  | cons p ps ih => simp [doneLoop, hf p, ih]

/-- Characterize membership in a freshly built grid. -/
theorem mem_newPixelImage {wid hei : Nat} {img : Nat → Nat → RGBA} {p : Pixel}
    (hp : p ∈ (NewPixelImage wid hei img).pixels) :
    ∃ x y, x < wid ∧ y < hei ∧ p = mkNewPixel img x y := by
  rw [NewPixelImage] at hp
  simp only [List.mem_flatMap, List.mem_map, List.mem_range] at hp
  obtain ⟨y, hy, x, hx, hpx⟩ := hp
  exact ⟨x, y, hx, hy, hpx.symm⟩

/-- On a fresh grid, the uncovered pixels are exactly the opaque ones. -/
theorem newPixelImage_filter_uncovered (wid hei : Nat) (img : Nat → Nat → RGBA) :
    (NewPixelImage wid hei img).pixels.filter (fun p => !p.covered)
      = (NewPixelImage wid hei img).pixels.filter (fun p => decide (0 < p.a)) := by
  apply List.filter_congr
  intro p hp
  obtain ⟨x, y, hx, hy, rfl⟩ := mem_newPixelImage hp
  by_cases h : (img x y).a = 0
  · simp [mkNewPixel, h]
  · simp [mkNewPixel, h, Nat.pos_of_ne_zero h]

/-- C5: after `CoverAllPixels` every pixel is covered; the emitted
rectangles are exactly one 1×1 rectangle per previously-uncovered pixel,
at its coordinate and with its source RGB color, appended in scan order;
and on a fresh grid the rectangle count equals the number of opaque
(alpha > 0) pixels. -/
theorem coverAllPixels_spec (pi : PixelImage) (wid hei : Nat)
    (img : Nat → Nat → RGBA) :
    Done (CoverAllPixels pi) = true ∧
    (CoverAllPixels pi).rects
      = pi.rects ++ (pi.pixels.filter (fun p => !p.covered)).map pixelRect ∧
    ((CoverAllPixels (NewPixelImage wid hei img)).rects).length
      = ((NewPixelImage wid hei img).pixels.filter (fun p => decide (0 < p.a))).length := by
  refine ⟨?_, ?_, ?_⟩
  · show doneLoop (coverAllLoop pi.pixels).1 = true
    rw [coverAllLoop_fst]
    apply doneLoop_map_covered
    intro p
    by_cases h : p.covered <;> simp [h]
  · show pi.rects ++ (coverAllLoop pi.pixels).2 = _
    rw [coverAllLoop_snd]
  · show ((NewPixelImage wid hei img).rects ++ (coverAllLoop _).2).length = _
    rw [coverAllLoop_snd, newPixelImage_filter_uncovered]
    show (List.map _ _).length = _
    rw [List.length_map]

/-- C6: on any fresh grid every alpha-0 pixel is pre-marked covered, and
no rectangle emitted by `CoverAllPixels` has a fully transparent pixel as
its subject. -/
theorem transparent_never_subject (wid hei : Nat) (img : Nat → Nat → RGBA) :
    (∀ p ∈ (NewPixelImage wid hei img).pixels, p.a = 0 → p.covered = true) ∧
    (∀ r ∈ (CoverAllPixels (NewPixelImage wid hei img)).rects,
      ¬((img r.x r.y).a = 0)) := by
  constructor
  · intro p hp ha
    obtain ⟨x, y, hx, hy, rfl⟩ := mem_newPixelImage hp
    show decide ((img x y).a = 0) = true
    have : (img x y).a = 0 := ha
    simp [this]
  · intro r hr
    have hrects : (CoverAllPixels (NewPixelImage wid hei img)).rects
        = ((NewPixelImage wid hei img).pixels.filter (fun p => !p.covered)).map pixelRect := by
      show (NewPixelImage wid hei img).rects ++ (coverAllLoop _).2 = _
      rw [coverAllLoop_snd]
      exact List.nil_append _
    rw [hrects] at hr
    obtain ⟨p, hpmem, hpr⟩ := List.mem_map.mp hr
    rw [List.mem_filter] at hpmem
    obtain ⟨hpmem, hpcov⟩ := hpmem
    obtain ⟨x, y, hx, hy, rfl⟩ := mem_newPixelImage hpmem
    subst hpr
    show ¬((img (mkNewPixel img x y).x (mkNewPixel img x y).y).a = 0)
    intro ha
    have : (mkNewPixel img x y).covered = true := by
      show decide ((img x y).a = 0) = true
      simp [mkNewPixel] at ha
      simp [ha]
    rw [this] at hpcov
    exact absurd hpcov (by simp)

/-- C6, witness: in the mixed 2×2 grid the transparent pixel at (0,0) is
pre-marked covered, and the rectangle emitted for the pixel at (1,0) has
an opaque subject. -/
theorem transparent_never_subject_witness :
    (mkNewPixel imgMix 0 0).covered = true ∧
    ¬((imgMix (pixelRect (mkNewPixel imgMix 1 0)).x
        (pixelRect (mkNewPixel imgMix 1 0)).y).a = 0) :=
  ⟨(transparent_never_subject 2 2 imgMix).1 (mkNewPixel imgMix 0 0)
      (by decide) (by decide),
   (transparent_never_subject 2 2 imgMix).2 (pixelRect (mkNewPixel imgMix 1 0))
      (by decide)⟩

/-- C8: under both mutating grid operations — `CoverAllPixels` from the
source and the spec-modelled `CoverBox` — every pixel keeps its position,
color and alpha, and the covered flag is never reset (the remaining source
operations return no modified grid at all). -/
theorem covered_flag_monotone (pi : PixelImage) (box : Box) (pink quantize : Bool) :
    List.Forall₂ pixelEvolves pi.pixels (CoverAllPixels pi).pixels ∧
    List.Forall₂ pixelEvolves pi.pixels (CoverBox pi box pink quantize).pixels := by
  constructor
  · have h1 : (CoverAllPixels pi).pixels
        = pi.pixels.map (fun p => if !p.covered then { p with covered := true } else p) :=
      coverAllLoop_fst pi.pixels
    rw [h1, List.forall₂_map_right_iff, List.forall₂_same]
    intro p _
    by_cases h : p.covered <;> simp [pixelEvolves, h]
  · have h2 : (CoverBox pi box pink quantize).pixels
        = pi.pixels.map (fun p => if inBox box p then { p with covered := true } else p) := rfl
    rw [h2, List.forall₂_map_right_iff, List.forall₂_same]
    intro p _
    by_cases h : inBox box p <;> simp [pixelEvolves, h]

/-- `find?` over an ascending range returns the least index satisfying the
predicate. -/
theorem find?_range'_spec {p : Nat → Bool} {s n x : Nat}
    (h : (List.range' s n).find? p = some x) :
    s ≤ x ∧ x < s + n ∧ p x = true ∧ ∀ x', s ≤ x' → x' < x → p x' = false := by
  induction n generalizing s with
  | zero => simp at h
  | succ n ih =>
    rw [List.range'_succ] at h
    by_cases hp : p s
    · rw [List.find?_cons_of_pos _ hp] at h
      obtain rfl : s = x := by injection h
      exact ⟨Nat.le_refl s, by omega, hp, fun x' h1 h2 => absurd (Nat.lt_of_le_of_lt h1 h2) (by omega)⟩
    · rw [List.find?_cons_of_neg _ hp] at h
      obtain ⟨h1, h2, h3, h4⟩ := ih h
      refine ⟨by omega, by omega, h3, fun x' hx1 hx2 => ?_⟩
      rcases Nat.eq_or_lt_of_le hx1 with rfl | h5
      · exact Bool.eq_false_iff.mpr hp
      · exact h4 x' h5 hx2

/-- `findSome?` over an ascending range returns the value at the least
index where the function answers, all earlier indices answering nothing. -/
theorem findSome?_range'_spec {β : Type} {f : Nat → Option β} {s n : Nat} {b : β}
    (h : (List.range' s n).findSome? f = some b) :
    ∃ y, s ≤ y ∧ y < s + n ∧ f y = some b ∧ ∀ y', s ≤ y' → y' < y → f y' = none := by
  induction n generalizing s with
  | zero => simp at h
  | succ n ih =>
    rw [List.range'_succ, List.findSome?_cons] at h
    cases hf : f s with
    | some b' =>
      rw [hf] at h
      obtain rfl : b' = b := by injection h
      exact ⟨s, Nat.le_refl s, by omega, hf,
        fun y' h1 h2 => absurd (Nat.lt_of_le_of_lt h1 h2) (by omega)⟩
    | none =>
      rw [hf] at h
      obtain ⟨y, h1, h2, h3, h4⟩ := ih h
      refine ⟨y, by omega, by omega, h3, fun y' hy1 hy2 => ?_⟩
      rcases Nat.eq_or_lt_of_le hy1 with rfl | h5
      · exact hf
      · exact h4 y' h5 hy2

/-- Unpack a `some` result of the source scan: in bounds, uncovered, and
row-major minimal. -/
theorem firstUncovered_some_spec {pi : PixelImage} {x y : Nat}
    (h : FirstUncovered pi = some (x, y)) :
    x < pi.w ∧ y < pi.h ∧ uncoveredAt pi x y = true ∧
    (∀ y', y' < y → ∀ x', x' < pi.w → uncoveredAt pi x' y' = false) ∧
    (∀ x', x' < x → uncoveredAt pi x' y = false) := by
  rw [FirstUncovered, List.range_eq_range'] at h
  obtain ⟨y0, -, hy0, hf, hprev⟩ := findSome?_range'_spec h
  rw [Nat.zero_add] at hy0
  cases hrow : scanRow pi y0 with
  | none => rw [hrow] at hf; exact absurd hf (by simp)
  | some x0 =>
    rw [hrow] at hf
    obtain ⟨rfl, rfl⟩ : x0 = x ∧ y0 = y := by
      have := hf
      simp only [Option.map_some] at this
      injection this with this
      exact ⟨congrArg Prod.fst this, congrArg Prod.snd this⟩
    rw [scanRow, List.range_eq_range'] at hrow
    obtain ⟨-, hx, hux, hxmin⟩ := find?_range'_spec hrow
    rw [Nat.zero_add] at hx
    refine ⟨hx, hy0, hux, ?_, ?_⟩
    · intro y' hy' x' hx'
      have hnone := hprev y' (Nat.zero_le y') hy'
      cases hrow' : scanRow pi y' with
      | some x1 => rw [hrow'] at hnone; exact absurd hnone (by simp)
      | none =>
        rw [scanRow, List.range_eq_range'] at hrow'
        have := List.find?_eq_none.mp hrow' x' (by rw [List.mem_range'_1]; omega)
        exact Bool.not_eq_true _ ▸ Bool.eq_false_iff.mpr this
    · intro x' hx'
      exact hxmin x' (Nat.zero_le x') hx'

/-- `Done pi = false` yields an in-bounds uncovered coordinate, given the
grid invariant `|pixels| = w*h`. -/
theorem exists_uncovered_coord {pi : PixelImage}
    (hlen : pi.pixels.length = pi.w * pi.h) (hne : Done pi = false) :
    ∃ x y, x < pi.w ∧ y < pi.h ∧ uncoveredAt pi x y = true := by
  obtain ⟨p, hmem, hcov⟩ := (doneLoop_eq_false_iff pi.pixels).mp hne
  obtain ⟨i, hi, hget⟩ := List.mem_iff_getElem.mp hmem
  refine ⟨i % pi.w, i / pi.w, ?_, ?_, ?_⟩
  · have : 0 < pi.w := by
      rcases Nat.eq_zero_or_pos pi.w with h0 | h0
      · rw [hlen, h0] at hi; omega
      · exact h0
    exact Nat.mod_lt i this
  · have hw : 0 < pi.w := by
      rcases Nat.eq_zero_or_pos pi.w with h0 | h0
      · rw [hlen, h0] at hi; omega
      · exact h0
    rw [Nat.div_lt_iff_lt_mul hw]
    rw [hlen] at hi
    exact Nat.lt_of_lt_of_le hi (by rw [Nat.mul_comm])
  · have hidx : i / pi.w * pi.w + i % pi.w = i := by
      rw [Nat.mul_comm]
      exact Nat.div_add_mod i pi.w
    rw [uncoveredAt, Covered, hidx]
    rw [List.get?_eq_getElem?, List.getElem?_eq_getElem hi, hget]
    simp [hcov]

/-- If some in-bounds coordinate is uncovered, the scan finds one. -/
theorem firstUncovered_isSome_of_uncovered {pi : PixelImage}
    (h : ∃ x y, x < pi.w ∧ y < pi.h ∧ uncoveredAt pi x y = true) :
    (FirstUncovered pi).isSome = true := by
  obtain ⟨x0, y0, hx0, hy0, hu⟩ := h
  cases hfu : FirstUncovered pi with
  | some v => rfl
  | none =>
    exfalso
    rw [FirstUncovered, List.findSome?_eq_none_iff] at hfu
    have := hfu y0 (List.mem_range.mpr hy0)
    rw [Option.map_eq_none'] at this
    rw [scanRow, List.find?_eq_none] at this
    exact absurd hu (by simpa using this x0 (List.mem_range.mpr hx0))

/-- C2: on any grid satisfying the size invariant and holding an uncovered
pixel, `FirstUncovered` returns an in-bounds uncovered coordinate, and
every other uncovered coordinate is strictly later in row-major order. -/
theorem firstUncovered_row_major_min (pi : PixelImage)
    (hlen : pi.pixels.length = pi.w * pi.h) (hne : Done pi = false) :
    (FirstUncovered pi).isSome = true ∧
    ∀ x y, FirstUncovered pi = some (x, y) →
      x < pi.w ∧ y < pi.h ∧ uncoveredAt pi x y = true ∧
      ∀ x' y', x' < pi.w → y' < pi.h → uncoveredAt pi x' y' = true →
        (y < y' ∨ (y = y' ∧ x ≤ x')) := by
  refine ⟨firstUncovered_isSome_of_uncovered (exists_uncovered_coord hlen hne), ?_⟩
  intro x y hfu
  obtain ⟨hx, hy, hu, hrows, hcols⟩ := firstUncovered_some_spec hfu
  refine ⟨hx, hy, hu, ?_⟩
  intro x' y' hx' hy' hu'
  rcases Nat.lt_trichotomy y y' with h | h | h
  · exact Or.inl h
  · subst h
    refine Or.inr ⟨rfl, ?_⟩
    by_contra hxx
    exact absurd hu' (by rw [hcols x' (by omega)]; simp)
  · exact absurd hu' (by rw [hrows y' h x' hx']; simp)

/-- C2, witness: on the mixed 2×2 grid (whose (0,0) pixel is transparent,
hence pre-covered) `FirstUncovered` answers, the answer (1,0) is uncovered,
and the uncovered coordinate (1,1) is row-major later. -/
theorem firstUncovered_row_major_min_witness :
    (FirstUncovered gridMix).isSome = true ∧
    (0 < 1 ∨ (0 = 1 ∧ 1 ≤ 1)) := by
  have h := firstUncovered_row_major_min gridMix (by decide) (by decide)
  refine ⟨h.1, ?_⟩
  have h2 := (h.2 1 0 (by decide)).2.2.2 1 1 (by decide) (by decide) (by decide)
  exact h2

/-- C9: under the loop control (`Done` is false), the exhausted-scan panic
branch of `FirstUncovered` is unreachable — the scan returns a coordinate. -/
theorem firstUncovered_panic_unreachable (pi : PixelImage)
    (hlen : pi.pixels.length = pi.w * pi.h) (hne : Done pi = false) :
    (FirstUncovered pi).isSome = true :=
  firstUncovered_isSome_of_uncovered (exists_uncovered_coord hlen hne)

/-- C9, witness. -/
theorem firstUncovered_panic_unreachable_witness :
    (FirstUncovered gridRed).isSome = true :=
  firstUncovered_panic_unreachable gridRed (by decide) (by decide)

/-- A pointwise cover-monotone map never increases the uncovered count. -/
theorem countP_uncovered_map_le (l : List Pixel) (f : Pixel → Pixel)
    (hmono : ∀ p, (f p).covered = false → p.covered = false) :
    (l.map f).countP (fun p => !p.covered) ≤ l.countP (fun p => !p.covered) := by
  induction l with
  | nil => exact Nat.le_refl _
  | cons q l ih =>
    rw [List.map_cons, List.countP_cons, List.countP_cons]
    have : ((!(f q).covered) = true → (!q.covered) = true) := by
      intro h
      simp only [Bool.not_eq_true'] at h ⊢
      exact hmono q h
    by_cases hq : (!(f q).covered) = true
    · rw [if_pos hq, if_pos (this hq)]
      omega
    · rw [if_neg hq]
      split <;> omega

/-- A pointwise cover-monotone map that newly covers some member pixel
strictly decreases the uncovered count. -/
theorem countP_uncovered_map_lt (l : List Pixel) (f : Pixel → Pixel)
    (hmono : ∀ p, (f p).covered = false → p.covered = false)
    {p0 : Pixel} (hmem : p0 ∈ l) (h0 : p0.covered = false)
    (h1 : (f p0).covered = true) :
    (l.map f).countP (fun p => !p.covered) < l.countP (fun p => !p.covered) := by
  induction l with
  | nil => cases hmem
  | cons q l ih =>
    rw [List.map_cons, List.countP_cons, List.countP_cons]
    rcases List.mem_cons.mp hmem with rfl | hmem'
    · rw [if_neg (by simp [h1]), if_pos (by simp [h0])]
      have := countP_uncovered_map_le l f hmono
      omega
    · have hlt := ih hmem'
      have : ((!(f q).covered) = true → (!q.covered) = true) := by
        intro h
        simp only [Bool.not_eq_true'] at h ⊢
        exact hmono q h
      by_cases hq : (!(f q).covered) = true
      · rw [if_pos hq, if_pos (this hq)]; omega
      · rw [if_neg hq]; split <;> omega

/-- Fields the rightward phase leaves alone, and monotone growth of the
right edge. -/
theorem expandRight_fields (pi : PixelImage) :
    ∀ fuel b, (expandRight pi fuel b).x1 = b.x1 ∧ (expandRight pi fuel b).y1 = b.y1 ∧
      (expandRight pi fuel b).y2 = b.y2 ∧ b.x2 ≤ (expandRight pi fuel b).x2 := by
  intro fuel
  induction fuel with
  | zero => exact fun b => ⟨rfl, rfl, rfl, Nat.le_refl _⟩
  | succ fuel ih =>
    intro b
    rw [expandRight]
    by_cases h : (decide (b.x2 + 1 < pi.w) && colOk pi b (b.x2 + 1)) = true
    · rw [if_pos h]
      obtain ⟨h1, h2, h3, h4⟩ := ih { b with x2 := b.x2 + 1 }
      refine ⟨h1, h2, h3, ?_⟩
      dsimp only at h4
      omega
    · rw [if_neg h]
      exact ⟨rfl, rfl, rfl, Nat.le_refl _⟩

/-- Fields the downward phase leaves alone, and monotone growth of the
bottom edge. -/
theorem expandDown_fields (pi : PixelImage) :
    ∀ fuel b, (expandDown pi fuel b).x1 = b.x1 ∧ (expandDown pi fuel b).y1 = b.y1 ∧
      (expandDown pi fuel b).x2 = b.x2 ∧ b.y2 ≤ (expandDown pi fuel b).y2 := by
  intro fuel
  induction fuel with
  | zero => exact fun b => ⟨rfl, rfl, rfl, Nat.le_refl _⟩
  | succ fuel ih =>
    intro b
    rw [expandDown]
    by_cases h : (decide (b.y2 + 1 < pi.h) && rowOk pi b (b.y2 + 1)) = true
    · rw [if_pos h]
      obtain ⟨h1, h2, h3, h4⟩ := ih { b with y2 := b.y2 + 1 }
      refine ⟨h1, h2, h3, ?_⟩
      dsimp only at h4
      omega
    · rw [if_neg h]
      exact ⟨rfl, rfl, rfl, Nat.le_refl _⟩

/-- The grid invariant gives the pixel stored at `(x, y)` its own
coordinates. -/
theorem coherentB_coords {pi : PixelImage} (hc : coherentB pi = true)
    {x y : Nat} (hx : x < pi.w) (hy : y < pi.h) :
    ∃ p, pi.pixels.get? (y * pi.w + x) = some p ∧ p.x = x ∧ p.y = y := by
  rw [coherentB, Bool.and_eq_true] at hc
  obtain ⟨hlen, hall⟩ := hc
  have hlen' : pi.pixels.length = pi.w * pi.h := by
    simpa using hlen
  have hi : y * pi.w + x < pi.pixels.length := by
    rw [hlen']
    calc y * pi.w + x < y * pi.w + pi.w := by omega
      _ = (y + 1) * pi.w := by ring
      _ ≤ pi.h * pi.w := Nat.mul_le_mul_right _ hy
      _ = pi.w * pi.h := Nat.mul_comm _ _
  rw [List.all_eq_true] at hall
  have h := hall (y * pi.w + x) (List.mem_range.mpr hi)
  rw [Bool.and_eq_true, List.getD_eq_getElem _ _ hi] at h
  rw [List.get?_eq_getElem?, List.getElem?_eq_getElem hi]
  refine ⟨pi.pixels[y * pi.w + x], rfl, ?_, ?_⟩
  · have h1 : pi.pixels[y * pi.w + x].x = (y * pi.w + x) % pi.w := by simpa using h.1
    rw [h1, Nat.mul_comm y pi.w, Nat.mul_add_mod]
    exact Nat.mod_eq_of_lt hx
  · have h2 : pi.pixels[y * pi.w + x].y = (y * pi.w + x) / pi.w := by simpa using h.2
    rw [h2, Nat.mul_comm y pi.w, Nat.mul_add_div (by omega) y x]
    rw [Nat.div_eq_of_lt hx]
    omega

/-- `CoverBox` preserves the grid invariant: dimensions, pixel count and
stored coordinates are untouched. -/
theorem coverBox_coherent (pi : PixelImage) (box : Box) (pink q : Bool)
    (hc : coherentB pi = true) : coherentB (CoverBox pi box pink q) = true := by
  rw [coherentB, Bool.and_eq_true] at hc ⊢
  obtain ⟨hlen, hall⟩ := hc
  have hpx : (CoverBox pi box pink q).pixels
      = pi.pixels.map (fun p => if inBox box p then { p with covered := true } else p) := rfl
  have hw : (CoverBox pi box pink q).w = pi.w := rfl
  have hh : (CoverBox pi box pink q).h = pi.h := rfl
  constructor
  · rw [hpx, List.length_map, hw, hh]
    exact hlen
  · rw [List.all_eq_true] at hall ⊢
    intro i hi
    rw [hpx, List.length_map] at hi
    have hilen : i < pi.pixels.length := by
      simpa using List.mem_range.mp hi
    have h := hall i (List.mem_range.mpr hilen)
    rw [Bool.and_eq_true, List.getD_eq_getElem _ _ hilen] at h
    rw [Bool.and_eq_true, List.getD_eq_getElem?_getD, hpx, List.getElem?_map, hw,
      List.getElem?_eq_getElem hilen, Option.map_some', Option.getD_some]
    by_cases hb : inBox box pi.pixels[i]
    · simp only [hb, ite_true]
      exact ⟨by simpa using h.1, by simpa using h.2⟩
    · simp only [hb, ite_false]
      exact ⟨by simpa using h.1, by simpa using h.2⟩

/-- `mainStep` preserves the grid invariant. -/
theorem mainStep_coherent (pi : PixelImage) (cp q : Bool)
    (hc : coherentB pi = true) : coherentB (mainStep pi cp q) = true := by
  rw [mainStep]
  cases hfu : FirstUncovered pi with
  | none => exact hc
  | some v => exact coverBox_coherent pi _ _ _ hc

/-- Each iteration of the main loop covers at least one previously
uncovered pixel: the uncovered count strictly decreases. -/
theorem mainStep_countUncovered_lt (pi : PixelImage) (cp q : Bool)
    (hc : coherentB pi = true) (hne : Done pi = false) :
    countUncovered (mainStep pi cp q) < countUncovered pi := by
  have hlen : pi.pixels.length = pi.w * pi.h := by
    rw [coherentB, Bool.and_eq_true] at hc
    simpa using hc.1
  have hsome := firstUncovered_isSome_of_uncovered (exists_uncovered_coord hlen hne)
  obtain ⟨⟨x, y⟩, hfu⟩ := Option.isSome_iff_exists.mp hsome
  obtain ⟨hx, hy, hu, -, -⟩ := firstUncovered_some_spec hfu
  obtain ⟨p0, hget, hpx, hpy⟩ := coherentB_coords hc hx hy
  have hp0cov : p0.covered = false := by
    rw [uncoveredAt, Covered, hget] at hu
    simpa using hu
  have hp0mem : p0 ∈ pi.pixels := List.get?_mem hget
  have hstep : mainStep pi cp q
      = CoverBox pi
          (expandDown pi pi.h (expandRight pi pi.w (CreateBox pi x y)))
          ((Expand pi (CreateBox pi x y)).2 && cp) q := by
    rw [mainStep, hfu]
    rfl
  rw [hstep]
  have hpixels : (CoverBox pi
      (expandDown pi pi.h (expandRight pi pi.w (CreateBox pi x y)))
      ((Expand pi (CreateBox pi x y)).2 && cp) q).pixels
      = pi.pixels.map (fun p =>
          if inBox (expandDown pi pi.h (expandRight pi pi.w (CreateBox pi x y))) p
          then { p with covered := true } else p) := rfl
  show ((CoverBox _ _ _ _).pixels.countP _) < _
  rw [hpixels]
  refine countP_uncovered_map_lt pi.pixels _ ?_ hp0mem hp0cov ?_
  · intro p hp
    by_cases hb : inBox (expandDown pi pi.h (expandRight pi pi.w (CreateBox pi x y))) p
    · rw [if_pos hb] at hp
      exact absurd hp (by simp)
    · rw [if_neg hb] at hp
      exact hp
  · have hseed : inBox (expandDown pi pi.h (expandRight pi pi.w (CreateBox pi x y))) p0 = true := by
      obtain ⟨hr1, hr2, hr3, hr4⟩ := expandRight_fields pi pi.w (CreateBox pi x y)
      obtain ⟨hd1, hd2, hd3, hd4⟩ :=
        expandDown_fields pi pi.h (expandRight pi pi.w (CreateBox pi x y))
      have hcx1 : (CreateBox pi x y).x1 = x := rfl
      have hcy1 : (CreateBox pi x y).y1 = y := rfl
      have hcx2 : (CreateBox pi x y).x2 = x := rfl
      have hcy2 : (CreateBox pi x y).y2 = y := rfl
      rw [inBox]
      rw [hd1, hr1, hcx1, hd2, hr2, hcy1, hd3, hpx, hpy]
      simp only [Bool.and_eq_true, decide_eq_true_eq]
      refine ⟨⟨⟨Nat.le_refl x, ?_⟩, Nat.le_refl y⟩, ?_⟩
      · rw [hcx2] at hr4; exact hr4
      · rw [hcy2] at hr3; rw [hr3] at hd4; exact hd4
    rw [if_pos hseed]

/-- Running the fueled main loop with at least `countUncovered` fuel lands
in the all-covered state. -/
theorem mainLoopFuel_done (cp q : Bool) :
    ∀ n pi, coherentB pi = true → countUncovered pi ≤ n →
      Done (mainLoopFuel cp q n pi) = true := by
  intro n
  induction n with
  | zero =>
    intro pi hc hcount
    rw [mainLoopFuel]
    by_cases hd : Done pi = true
    · exact hd
    · exfalso
      obtain ⟨p, hmem, hcov⟩ :=
        (doneLoop_eq_false_iff pi.pixels).mp (Bool.eq_false_iff.mpr hd)
      have : 0 < countUncovered pi :=
        List.countP_pos_iff.mpr ⟨p, hmem, by simp [hcov]⟩
      omega
  | succ n ih =>
    intro pi hc hcount
    rw [mainLoopFuel]
    by_cases hd : Done pi = true
    · rw [if_pos hd]; exact hd
    · rw [if_neg hd]
      have hne : Done pi = false := Bool.eq_false_iff.mpr hd
      have hlt := mainStep_countUncovered_lt pi cp q hc hne
      exact ih (mainStep pi cp q) (mainStep_coherent pi cp q hc) (by omega)

/-- C7: on every coherent grid the main covering loop terminates — each
iteration covers at least one previously uncovered pixel, so the uncovered
count strictly decreases, and running the loop with that count as fuel
reaches the all-covered state. -/
theorem main_loop_terminates (pi : PixelImage) (cp q : Bool)
    (hc : coherentB pi = true) :
    (Done pi = false → countUncovered (mainStep pi cp q) < countUncovered pi) ∧
    Done (mainLoop pi cp q) = true :=
  ⟨fun hne => mainStep_countUncovered_lt pi cp q hc hne,
   mainLoopFuel_done cp q (countUncovered pi) pi hc (Nat.le_refl _)⟩

/-- C7, witness: on the mixed 2×2 grid one step covers strictly more, and
the loop ends fully covered. -/
theorem main_loop_terminates_witness :
    countUncovered (mainStep gridMix false false) < countUncovered gridMix ∧
    Done (mainLoop gridMix false false) = true :=
  ⟨(main_loop_terminates gridMix false false (by decide)).1 (by decide),
   (main_loop_terminates gridMix false false (by decide)).2⟩

/-- `addToGroup` keeps the key list, extending it only for a new key. -/
theorem addToGroup_keys (gs : List (List Char × List (List Char)))
    (k l : List Char) :
    groupKeys (addToGroup gs k l)
      = if k ∈ groupKeys gs then groupKeys gs else groupKeys gs ++ [k] := by
  induction gs with
  | nil => simp [addToGroup, groupKeys]
  | cons g rest ih =>
    obtain ⟨k', ls⟩ := g
    rw [addToGroup]
    by_cases hk : k' = k
    · subst hk
      simp [groupKeys]
    · rw [if_neg hk]
      simp only [groupKeys, List.map_cons] at ih ⊢
      rw [ih]
      by_cases hmem : k ∈ rest.map Prod.fst
      · rw [if_pos hmem, if_pos (List.mem_cons_of_mem k' hmem)]
      · rw [if_neg hmem,
          if_neg (fun hmm => (List.mem_cons.mp hmm).elim (fun he => hk he.symm) hmem)]
        rw [List.cons_append]

/-- `addToGroup` preserves distinctness of the keys. -/
theorem addToGroup_nodup {gs : List (List Char × List (List Char))}
    (h : (groupKeys gs).Nodup) (k l : List Char) :
    (groupKeys (addToGroup gs k l)).Nodup := by
  rw [addToGroup_keys]
  by_cases hmem : k ∈ groupKeys gs
  · rw [if_pos hmem]; exact h
  · rw [if_neg hmem]
    exact List.Nodup.append h (List.nodup_singleton k) (by simpa using hmem)

/-- The grouped-lines map always has distinct keys. -/
theorem buildGroups_nodup (lines : List (List Char)) :
    (groupKeys (buildGroups lines)).Nodup := by
  rw [buildGroups]
  have aux : ∀ (ls : List (List Char)) (gs : List (List Char × List (List Char))),
      (groupKeys gs).Nodup →
      (groupKeys (ls.foldl (fun gs line =>
        let k := colorFromLine line
        if k = [] then gs else addToGroup gs k line) gs)).Nodup := by
    intro ls
    induction ls with
    | nil => exact fun gs h => h
    | cons line ls ih =>
      intro gs h
      rw [List.foldl_cons]
      by_cases hc : colorFromLine line = []
      · simpa [hc] using ih gs h
      · simpa [hc] using ih _ (addToGroup_nodup h _ line)
  exact aux lines [] (by simp [groupKeys])

/-- With distinct keys, Go map indexing returns a bucket's own lines. -/
theorem lookupGroup_self {gs : List (List Char × List (List Char))}
    (h : (groupKeys gs).Nodup) {k : List Char} {ms : List (List Char)}
    (hmem : (k, ms) ∈ gs) : lookupGroup gs k = ms := by
  induction gs with
  | nil => cases hmem
  | cons g rest ih =>
    obtain ⟨k', ls⟩ := g
    rw [groupKeys, List.map_cons, List.nodup_cons] at h
    rcases List.mem_cons.mp hmem with heq | hmem'
    · injection heq with h1 h2
      subst h1
      subst h2
      rw [lookupGroup, List.find?_cons_of_pos _ (by simp)]
    · have hne : k' ≠ k := by
        intro hk
        subst hk
        exact h.1 (by
          have : k' ∈ (rest.map Prod.fst) := List.mem_map.mpr ⟨(k', ms), hmem', rfl⟩
          simpa [groupKeys] using this)
      rw [lookupGroup, List.find?_cons_of_neg _ (by simp [hne])]
      exact ih h.2 hmem'

/-- Appending a line to its bucket adds exactly that line to the flattened
member multiset. -/
theorem addToGroup_flatten_perm (gs : List (List Char × List (List Char)))
    (k l : List Char) :
    (((addToGroup gs k l).map Prod.snd).flatten).Perm
      ((gs.map Prod.snd).flatten ++ [l]) := by
  induction gs with
  | nil => simp [addToGroup]
  | cons g rest ih =>
    obtain ⟨k', ls⟩ := g
    rw [addToGroup]
    by_cases hk : k' = k
    · rw [if_pos hk]
      rw [List.perm_iff_count]
      intro a
      simp [List.count_append, List.count_cons]
      try omega
    · rw [if_neg hk]
      simp only [List.map_cons, List.flatten_cons]
      refine (List.Perm.append_left ls ih).trans ?_
      rw [List.perm_iff_count]
      intro a
      simp [List.count_append]
      try omega

/-- Building the map collects exactly the fill-carrying lines. -/
theorem buildGroups_members_perm (lines : List (List Char)) :
    (((buildGroups lines).map Prod.snd).flatten).Perm (fillLines lines) := by
  rw [buildGroups]
  have aux : ∀ (ls : List (List Char)) (gs : List (List Char × List (List Char))),
      (((ls.foldl (fun gs line =>
          let k := colorFromLine line
          if k = [] then gs else addToGroup gs k line) gs).map Prod.snd).flatten).Perm
        ((gs.map Prod.snd).flatten ++ fillLines ls) := by
    intro ls
    induction ls with
    | nil => intro gs; simp [fillLines]
    | cons line ls ih =>
      intro gs
      rw [List.foldl_cons]
      by_cases hc : colorFromLine line = []
      · have hf : fillLines (line :: ls) = fillLines ls := by
          simp [fillLines, List.filter_cons, hc]
        rw [hf]
        simpa [hc] using ih gs
      · have hf : fillLines (line :: ls) = line :: fillLines ls := by
          simp [fillLines, List.filter_cons, hc]
        have h1 := ih (addToGroup gs (colorFromLine line) line)
        have h2 := List.Perm.append_right (fillLines ls)
          (addToGroup_flatten_perm gs (colorFromLine line) line)
        have h3 : ((((gs.map Prod.snd).flatten ++ [line]) ++ fillLines ls)).Perm
            ((gs.map Prod.snd).flatten ++ (line :: fillLines ls)) := by
          rw [List.perm_iff_count]
          intro a
          simp [List.count_append, List.count_cons]
          try omega
        rw [hf]
        have hcomp := (h1.trans h2).trans h3
        simpa [hc] using hcomp
  have := aux lines []
  simpa using this

/-- Every line in a bucket carries that bucket's fill color. -/
theorem buildGroups_colors (lines : List (List Char)) :
    ∀ g ∈ buildGroups lines, ∀ m ∈ g.2, colorFromLine m = g.1 := by
  rw [buildGroups]
  have auxAdd : ∀ (gs : List (List Char × List (List Char))) (k l : List Char),
      (∀ g ∈ gs, ∀ m ∈ g.2, colorFromLine m = g.1) → colorFromLine l = k →
      ∀ g ∈ addToGroup gs k l, ∀ m ∈ g.2, colorFromLine m = g.1 := by
    intro gs
    induction gs with
    | nil =>
      intro k l _ hl g hg m hm
      rw [addToGroup] at hg
      rcases List.mem_singleton.mp hg with rfl
      rcases List.mem_singleton.mp hm with rfl
      exact hl
    | cons g0 rest ih =>
      intro k l hinv hl g hg m hm
      obtain ⟨k', ls⟩ := g0
      rw [addToGroup] at hg
      by_cases hk : k' = k
      · rw [if_pos hk] at hg
        rcases List.mem_cons.mp hg with rfl | hg'
        · rcases List.mem_append.mp hm with hm' | hm'
          · exact hinv (k', ls) (List.mem_cons_self _ _) m hm'
          · rcases List.mem_singleton.mp hm' with rfl
            rw [hl, hk]
        · exact hinv g (List.mem_cons_of_mem _ hg') m hm
      · rw [if_neg hk] at hg
        rcases List.mem_cons.mp hg with rfl | hg'
        · exact hinv (k', ls) (List.mem_cons_self _ _) m hm
        · exact ih k l (fun g' hg' => hinv g' (List.mem_cons_of_mem _ hg')) hl g hg' m hm
  have aux : ∀ (ls : List (List Char)) (gs : List (List Char × List (List Char))),
      (∀ g ∈ gs, ∀ m ∈ g.2, colorFromLine m = g.1) →
      ∀ g ∈ (ls.foldl (fun gs line =>
          let k := colorFromLine line
          if k = [] then gs else addToGroup gs k line) gs), ∀ m ∈ g.2, colorFromLine m = g.1 := by
    intro ls
    induction ls with
    | nil => exact fun gs h => h
    | cons line ls ih =>
      intro gs hinv
      rw [List.foldl_cons]
      by_cases hc : colorFromLine line = []
      · simpa [hc] using ih gs hinv
      · simpa [hc] using ih _ (auxAdd gs _ line hinv rfl)
  exact aux lines [] (by intro g hg; cases hg)

/-- The rendered member multiset equals the fill-carrying input lines with
their own fill attribute stripped, for any admissible map order. -/
theorem strippedMembers_perm (lines : List (List Char))
    (order : List (List Char))
    (horder : order.Perm (groupKeys (buildGroups lines))) :
    (strippedMembers order (buildGroups lines)).Perm
      ((fillLines lines).map stripOwnFill) := by
  have hnodup := buildGroups_nodup lines
  have hA : (order.map (fun k =>
        (lookupGroup (buildGroups lines) k).map
          (fun m => goReplace m (fillAttr k) [] 1))).Perm
      ((groupKeys (buildGroups lines)).map (fun k =>
        (lookupGroup (buildGroups lines) k).map
          (fun m => goReplace m (fillAttr k) [] 1))) :=
    List.Perm.map _ horder
  have hB : (groupKeys (buildGroups lines)).map (fun k =>
        (lookupGroup (buildGroups lines) k).map
          (fun m => goReplace m (fillAttr k) [] 1))
      = (buildGroups lines).map (fun g => g.2.map stripOwnFill) := by
    rw [groupKeys, List.map_map]
    apply List.map_congr_left
    intro g hg
    have hlook : lookupGroup (buildGroups lines) g.1 = g.2 :=
      lookupGroup_self hnodup (by simpa using hg)
    show (lookupGroup (buildGroups lines) g.1).map
        (fun m => goReplace m (fillAttr g.1) [] 1) = g.2.map stripOwnFill
    rw [hlook]
    apply List.map_congr_left
    intro m hm
    rw [stripOwnFill, buildGroups_colors lines g hg m hm]
  have hC : (strippedMembers order (buildGroups lines)).Perm
      (((buildGroups lines).map (fun g => g.2.map stripOwnFill)).flatten) := by
    rw [strippedMembers]
    exact List.Perm.flatten (hB ▸ hA)
  have hD : ((buildGroups lines).map (fun g => g.2.map stripOwnFill)).flatten
      = (((buildGroups lines).map Prod.snd).flatten).map stripOwnFill := by
    rw [List.map_flatten, List.map_map]
    rfl
  rw [hD] at hC
  exact hC.trans (List.Perm.map stripOwnFill (buildGroups_members_perm lines))

/-- C3: for any admissible map iteration order, the color-grouping pass
keeps every fill-carrying line exactly once — as a member of the `<g>`
block of its own fill color, with the shared fill attribute stripped — so
the total rectangle count is unchanged. -/
theorem grouping_preserves_rectangles (lines : List (List Char))
    (order : List (List Char))
    (horder : order.Perm (groupKeys (buildGroups lines))) :
    (strippedMembers order (buildGroups lines)).Perm
      ((fillLines lines).map stripOwnFill) ∧
    (∀ g ∈ buildGroups lines, ∀ m ∈ g.2, colorFromLine m = g.1) ∧
    (strippedMembers order (buildGroups lines)).length = (fillLines lines).length := by
  refine ⟨strippedMembers_perm lines order horder, buildGroups_colors lines, ?_⟩
  rw [(strippedMembers_perm lines order horder).length_eq, List.length_map]

/-- C3, witness: a five-line document with three rectangles in two colors,
grouped under an order differing from insertion order. -/
theorem grouping_preserves_rectangles_witness :
    (strippedMembers c3ExampleOrder (buildGroups c3ExampleLines)).Perm
      ((fillLines c3ExampleLines).map stripOwnFill) ∧
    (∀ g ∈ buildGroups c3ExampleLines, ∀ m ∈ g.2, colorFromLine m = g.1) ∧
    (strippedMembers c3ExampleOrder (buildGroups c3ExampleLines)).length
      = (fillLines c3ExampleLines).length :=
  grouping_preserves_rectangles c3ExampleLines c3ExampleOrder (by decide)

/-- C10, counterexample: for one pixel state (a rendered two-color
document), two iteration orders of the Go map — both enumerating the same
key set, as the language permits across invocations — produce different
document text, so two invocations of `String()` need not agree. -/
theorem c10_counterexample :
    c10OrderA.Perm (groupKeys (buildGroups (splitOnChar '\n' c10ExampleDoc))) ∧
    c10OrderB.Perm (groupKeys (buildGroups (splitOnChar '\n' c10ExampleDoc))) ∧
    StringRender c10ExampleDoc c10OrderA ≠ StringRender c10ExampleDoc c10OrderB :=
  ⟨by decide, by decide, by decide⟩

/-- C10 (amended): `String()` is a function of the pixel state and the map
iteration order, and whenever the document holds at most one fill-color
group the order is forced, making any two invocations agree; with two or
more distinct fill colors the group order — and hence the text — may
differ between invocations. -/
theorem string_render_deterministic_le_one_color (doc : List Char)
    (o1 o2 : List (List Char))
    (h1 : o1.Perm (groupKeys (buildGroups (splitOnChar '\n' doc))))
    (h2 : o2.Perm (groupKeys (buildGroups (splitOnChar '\n' doc))))
    (hle : (buildGroups (splitOnChar '\n' doc)).length ≤ 1) :
    StringRender doc o1 = StringRender doc o2 := by
  have ho : o1 = o2 := by
    cases hgs : buildGroups (splitOnChar '\n' doc) with
    | nil =>
      rw [hgs] at h1 h2
      have e1 : o1 = [] := List.Perm.eq_nil (by simpa [groupKeys] using h1)
      have e2 : o2 = [] := List.Perm.eq_nil (by simpa [groupKeys] using h2)
      rw [e1, e2]
    | cons g rest =>
      cases rest with
      | nil =>
        rw [hgs] at h1 h2
        have e1 : o1 = [g.1] := List.perm_singleton.mp (by simpa [groupKeys] using h1)
        have e2 : o2 = [g.1] := List.perm_singleton.mp (by simpa [groupKeys] using h2)
        rw [e1, e2]
      | cons g2 rest2 =>
        rw [hgs] at hle
        simp at hle
  rw [ho]

/-- C10, witness for the amended theorem: a single-color document renders
identically under any two admissible (necessarily equal) orders. -/
theorem string_render_deterministic_le_one_color_witness :
    StringRender c10SingleDoc c10SingleOrder = StringRender c10SingleDoc c10SingleOrder :=
  string_render_deterministic_le_one_color c10SingleDoc c10SingleOrder c10SingleOrder
    (by decide) (by decide) (by decide)

end Png2Svg
